import Mathlib

/-!
Verification of the BDBox inventory manager core (`extractData.py`).

The development shallowly embeds the ledger-maintenance and analytics engine of
`InventoryManager`.  Worksheet columns are modelled as sparse lists of cells
(index 0 corresponds to spreadsheet row 2; row 1 holds the header, which the
code never reads back except for event-column headers, modelled separately).
Python floats appearing in the data path are modelled as exact rationals;
a cell value on which Python `float()` would fail is modelled as `Value.str`.
-/

namespace BDBox

/-- A spreadsheet cell payload: either numeric content (anything Python
`float()` accepts, including ints and floats) or non-numeric content on which
`float()` raises. -/
inductive Value where
  | str (s : String)
  | num (q : ℚ)
deriving DecidableEq, Repr

/-- A cell: `none` models an empty cell (openpyxl value `None`). -/
abbrev Cell := Option Value

/-- Python truthiness of a cell payload: `0` and `""` are falsy, everything
else here is truthy. -/
def truthy : Value → Bool
  | .str s => s ≠ ""
  | .num q => q ≠ 0

/-- Python truthiness of a cell (`None` is falsy). -/
def truthyCell : Cell → Bool
  | none => false
  | some v => truthy v

/-- The reserved header string written to cell A1 of every sheet. -/
def labelHeaderVal : Value := .str "Label"

/-- `float()` conversion: numeric payloads convert, others raise (modelled as
`none`). -/
def toNum : Value → Option ℚ
  | .num q => some q
  | .str _ => none

/-- Read a cell of a sparse column; cells beyond the populated region are
empty. -/
def getCell : List Cell → ℕ → Cell
  | [], _ => none
  | c :: _, 0 => c
  | _ :: cs, n + 1 => getCell cs n

/-- Write a single cell of a sparse column, padding with empty cells when the
write lands beyond the populated region (openpyxl auto-extends the grid). -/
def setCell : List Cell → ℕ → Value → List Cell
  | [], 0, v => [some v]
  | [], n + 1, v => none :: setCell [] n v
  | _ :: cs, 0, v => some v :: cs
  | c :: cs, n + 1, v => c :: setCell cs n v

/-! ### Rounding (Python `round(x, 2)`) and truncation (Python `int(x)`) -/

/-- Floor of a rational, computed on the normalised numerator/denominator
(Euclidean division by the positive denominator is floor division). -/
def qfloor (q : ℚ) : ℤ := Int.ediv q.num (q.den : ℤ)

/-- Round-half-to-even to an integer, the rounding Python `round` uses. -/
def rhe (x : ℚ) : ℤ :=
  let f := qfloor x
  if x - (f : ℚ) < 1 / 2 then f
  else if 1 / 2 < x - (f : ℚ) then f + 1
  else if f % 2 = 0 then f else f + 1

/-- Python `round(x, 2)` over exact rationals. -/
def round2 (x : ℚ) : ℚ := (rhe (x * 100) : ℚ) / 100

/-- Python `int(x)`: truncation toward zero. -/
def pytrunc (q : ℚ) : ℤ := if 0 ≤ q then qfloor q else -qfloor (-q)

/-! ### Shortage colors (`InventoryManager._get_shortage_color`) -/

/-- One uppercase hex digit (argument expected in `[0, 16)`). -/
def hexChar (n : ℕ) : Char :=
  if n < 10 then Char.ofNat (48 + n) else Char.ofNat (55 + n)

/-- Two-digit uppercase hex rendering of a channel value, as produced by the
format `'{:02X}'` for values below 256 (channels here always are). -/
def toHex2 (n : ℕ) : String :=
  String.mk [hexChar (n / 16 % 16), hexChar (n % 16)]

/-- `InventoryManager._get_shortage_color`: shortage at least 15 clamps to the
severe endpoint; otherwise each RGB channel is linearly interpolated between
`C6EFCE` and `FFC7CE` with ratio `min (shortage / 15) 1`, truncated to an
integer by `int()` and formatted as two uppercase hex digits. -/
def get_shortage_color (shortage : ℚ) : String :=
  if 15 ≤ shortage then "FFC7CE"
  else
    let t := min (shortage / 15) 1
    let r := pytrunc (0xC6 + (0xFF - 0xC6) * t)
    let g := pytrunc (0xEF + (0xC7 - 0xEF) * t)
    let b := pytrunc (0xCE + (0xCE - 0xCE) * t)
    toHex2 r.toNat ++ (toHex2 g.toNat ++ toHex2 b.toNat)

/-- The channel formula exactly as the specification states it (no clamping of
the ratio): `start + (end - start) * (s / 15)`, truncated, per channel. -/
def claimChannelColor (s : ℚ) : String :=
  toHex2 (pytrunc (0xC6 + (0xFF - 0xC6) * (s / 15))).toNat ++
    (toHex2 (pytrunc (0xEF + (0xC7 - 0xEF) * (s / 15))).toNat ++
      toHex2 (pytrunc (0xCE + (0xCE - 0xCE) * (s / 15))).toNat)

/-! ### The Ledger sheet (`Inventory History`) -/

/-- The `Inventory History` worksheet.  `labelCells` is column A from row 2 on
(cell A1 holds the constant header `Label` and is never read back by the
code); `eventCols` are the event columns from column B on, each given by its
row-1 header string and its cells from row 2 on.  The code only ever writes
string headers, so headers are modelled as `String`. -/
structure Sheet where
  labelCells : List Cell
  eventCols : List (String × List Cell)
deriving DecidableEq, Repr

/-- A workbook with no history sheet yet: `_get_or_create_sheet` returns a
fresh empty worksheet. -/
def Sheet.empty : Sheet := ⟨[], []⟩

/-- The comprehension
`[cell.value for cell in ws['A'][1:] if cell.value and cell.value != 'Label']`
as a loop over the column-A cells. -/
def existingLabelsOf : List Cell → List Value
  | [] => []
  | none :: cs => existingLabelsOf cs
  | some v :: cs =>
    if truthy v && decide (v ≠ labelHeaderVal) then v :: existingLabelsOf cs
    else existingLabelsOf cs

/-- `InventoryManager._get_existing_labels`: the values of column A below the
header row, keeping only truthy values different from the string `Label`. -/
def get_existing_labels (s : Sheet) : List Value :=
  existingLabelsOf s.labelCells

/-- First-occurrence deduplication with an accumulator of already-seen values;
`dedupFirstAux [] l` is Python `list(dict.fromkeys(l))`. -/
def dedupFirstAux : List Value → List Value → List Value
  | _, [] => []
  | seen, x :: xs =>
    if x ∈ seen then dedupFirstAux seen xs else x :: dedupFirstAux (x :: seen) xs

/-- `InventoryManager._merge_labels`: `list(dict.fromkeys(existing + new))`. -/
def merge_labels (existing newLabels : List Value) : List Value :=
  dedupFirstAux [] (existing ++ newLabels)

/-- `InventoryManager._write_labels_to_column`: writes `Label` to A1 and the
given labels to rows 2..; cells of column A below the written range are left
untouched. -/
def write_labels_to_column (s : Sheet) (labels : List Value) : Sheet :=
  { s with labelCells := labels.map some ++ s.labelCells.drop labels.length }

/-- Insert into a Python dict modelled as an association list: a repeated key
keeps its first position but takes the new value; a fresh key is appended. -/
def dictUpsert (d : List (Value × Value)) (k v : Value) : List (Value × Value) :=
  if d.any (fun p => p.1 == k) then
    d.map (fun p => if p.1 == k then (p.1, v) else p)
  else d ++ [(k, v)]

def dictOfPairsAux : List (Value × Value) → List (Value × Value) → List (Value × Value)
  | acc, [] => acc
  | acc, p :: ps => dictOfPairsAux (dictUpsert acc p.1 p.2) ps

/-- The Python dict built from a list of key-value pairs (last write wins,
insertion order of first occurrence kept). -/
def dictOfPairs (ps : List (Value × Value)) : List (Value × Value) :=
  dictOfPairsAux [] ps

/-- Python dict lookup (`d[k]` or `k in d`); on a `dictOfPairs` result the
first matching pair is the only one. -/
def dictGet (d : List (Value × Value)) (k : Value) : Option Value :=
  (d.find? fun p => p.1 == k).map (·.2)

/-- `InventoryManager._add_inventory_column`: a new column is written at
`ws.max_column + 1`, i.e. appended after all existing event columns, with the
given header in row 1 and, for each label of `all_labels` (top to bottom), the
label's stock value if the label is in `label_to_stock`, an untouched (empty)
cell otherwise. -/
def add_inventory_column (s : Sheet) (allLabels : List Value)
    (labelToStock : List (Value × Value)) (columnHeader : String) : Sheet :=
  { s with eventCols :=
      s.eventCols ++ [(columnHeader, allLabels.map fun l => dictGet labelToStock l)] }

/-- The `values_to_move` dict of `_realign_existing_columns`: positionally
pairs the i-th existing label with the cell in row i+2 of the column, skipping
empty cells, then collapses into a dict (duplicate labels: last value wins). -/
def pairsOfAux (existing : List Value) (cells : List Cell) (k : ℕ) :
    List (Value × Value) :=
  match existing with
  | [] => []
  | l :: ls =>
    match getCell cells k with
    | some v => (l, v) :: pairsOfAux ls cells (k + 1)
    | none => pairsOfAux ls cells (k + 1)

def valuesToMove (existing : List Value) (cells : List Cell) :
    List (Value × Value) :=
  dictOfPairs (pairsOfAux existing cells 0)

/-- The `label_to_new_row` dict comprehension
`{label: idx + 2 for idx, label in enumerate(all_labels)}`: a duplicated label
keeps the last index (rows are offset by 2 in the spreadsheet; the model works
with 0-based cell indices). -/
def lastIdxOf : List Value → Value → Option ℕ
  | [], _ => none
  | x :: rest, v =>
    match lastIdxOf rest v with
    | some i => some (i + 1)
    | none => if x == v then some 0 else none

/-- Write each dict entry at its assigned row.  In the source a missing key in
`label_to_new_row` would raise `KeyError`; every caller passes labels contained
in `all_labels`, so the `none` case is unreachable and modelled as a skip. -/
def writeDict (rowOf : Value → Option ℕ) :
    List (Value × Value) → List Cell → List Cell
  | [], cells => cells
  | p :: d, cells =>
    writeDict rowOf d
      (match rowOf p.1 with
       | some i => setCell cells i p.2
       | none => cells)

/-- One column of `_realign_existing_columns`: read the values positionally
against `existing_labels`, clear the whole column below the header (an
all-empty column is modelled as `[]`, observationally equal under `getCell`),
then write every moved value at its label's new row. -/
def realignColumn (existing allLabels : List Value) (cells : List Cell) :
    List Cell :=
  writeDict (lastIdxOf allLabels) (valuesToMove existing cells) []

/-- `InventoryManager._realign_existing_columns`: realigns every event column
(columns B onwards); headers and column A are untouched. -/
def realign_existing_columns (s : Sheet) (existing allLabels : List Value) :
    Sheet :=
  { s with eventCols :=
      s.eventCols.map fun c => (c.1, realignColumn existing allLabels c.2) }

/-- `InventoryManager._update_inventory_history_internal`: merge the incoming
labels into the existing ones, realign the old event columns when the label
list grew, rewrite column A, and append the new event column.  (`ws.max_row`
is at least 1 in openpyxl, so the existing labels are always read; sheet
ordering and saving are presentation-only and not modelled.) -/
def update_inventory_history_internal (s : Sheet) (labels stockValues : List Value)
    (columnHeader : String) : Sheet :=
  let existing := get_existing_labels s
  let allLabels := merge_labels existing labels
  let s1 := if existing.length < allLabels.length then
      realign_existing_columns s existing allLabels
    else s
  let s2 := write_labels_to_column s1 allLabels
  add_inventory_column s2 allLabels (dictOfPairs (labels.zip stockValues)) columnHeader

/-- `InventoryManager.update_inventory_history`: a sale event; the column
header is `Sale {sale_number}`. -/
def update_inventory_history (s : Sheet) (labels stockValues : List Value)
    (saleNumber : String) : Sheet :=
  update_inventory_history_internal s labels stockValues ("Sale " ++ saleNumber)

/-- `InventoryManager._update_inventory_history_restock`: a restock event. -/
def update_inventory_history_restock (s : Sheet) (labels stockValues : List Value) :
    Sheet :=
  update_inventory_history_internal s labels stockValues "Restock"

/-- The values physically present in column A below the header. -/
def labelValues (s : Sheet) : List Value := s.labelCells.filterMap id

/-- The first row (0-based, from row 2) whose column-A cell holds `v`. -/
def firstIdxOf : List Cell → Value → Option ℕ
  | [], _ => none
  | c :: cs, v =>
    if c == some v then some 0 else (firstIdxOf cs v).map (· + 1)

/-- The row of a label in the Ledger. -/
def rowOfLabel (s : Sheet) (v : Value) : Option ℕ := firstIdxOf s.labelCells v

/-- The value the Ledger records for label `v` in event column `j` (0-based):
the cell of column `j` in the row where `v` sits in column A. -/
def recordedValue (s : Sheet) (v : Value) (j : ℕ) : Cell :=
  match rowOfLabel s v, s.eventCols[j]? with
  | some i, some c => getCell c.2 i
  | _, _ => none

/-- Well-formedness of the persisted Ledger: every label cell is truthy and
not the literal `Label`, and no label appears twice.  This holds for every
sheet built by appends whose labels are truthy and distinct from `Label`. -/
def wf (s : Sheet) : Prop :=
  (∀ c ∈ s.labelCells, truthyCell c = true ∧ c ≠ some labelHeaderVal) ∧
    s.labelCells.Nodup

instance (s : Sheet) : Decidable (wf s) := by
  unfold wf; infer_instance

/-! ### The DifferenceEngine (`InventoryManager.update_sales_differences`) -/

/-- The classification of an event column parsed from its header. -/
inductive ColKind where
  | sale (n : ℤ)
  | restock
deriving DecidableEq, Repr

/-- Python `str.startswith`, over character lists. -/
def listStartsWith : List Char → List Char → Bool
  | _, [] => true
  | [], _ :: _ => false
  | c :: cs, p :: ps => c == p && listStartsWith cs ps

/-- Parse a non-empty all-digit character list (the payload of Python
`int(...)` for the sale headers the manager itself writes). -/
def parseNatDigits (cs : List Char) : Option ℕ :=
  cs.foldl
    (fun acc c =>
      acc.bind fun n =>
        if 48 ≤ c.toNat && c.toNat ≤ 57 then some (10 * n + (c.toNat - 48)) else none)
    (if cs.isEmpty then none else some 0)

/-- Python `int(s)` for an optional leading minus followed by digits. -/
def parseIntChars : List Char → Option ℤ
  | '-' :: rest => (parseNatDigits rest).map fun n => -(n : ℤ)
  | cs => (parseNatDigits cs).map fun n => (n : ℤ)

/-- Header classification of `update_sales_differences`: headers starting with
`Sale ` are sales with the number after the prefix, headers starting with
`Restock` are restocks, any other header is skipped.  (A `Sale ` header whose
remainder does not parse as an int raises in the source; the manager itself
only writes parseable headers, so that case is modelled as a skip.) -/
def classifyHeader (h : String) : Option ColKind :=
  let cs := h.toList
  if listStartsWith cs ("Sale ".toList) then (parseIntChars (cs.drop 5)).map ColKind.sale
  else if listStartsWith cs ("Restock".toList) then some ColKind.restock
  else none

/-- The `inventory_columns` list: every event column classified by header. -/
def inventoryColumns (s : Sheet) : List (ColKind × List Cell) :=
  s.eventCols.filterMap fun c => (classifyHeader c.1).map (·, c.2)

/-- The consecutive-pair decision and difference-column header of
`update_sales_differences`: two sales whose numbers differ by exactly one, or
a restock followed by any sale. -/
def shouldDiff : ColKind → ColKind → Option String
  | .sale a, .sale b =>
    if b - a = 1 then
      some ("Difference Sale " ++ toString a ++ " - Sale " ++ toString b)
    else none
  | .restock, .sale b => some ("Difference Restock - Sale " ++ toString b)
  | _, _ => none

/-- One difference cell: computed only when both history cells are present and
numeric, otherwise left empty (the `try/except` swallows conversion errors). -/
def diffCell (c1 c2 : Cell) : Cell :=
  match c1, c2 with
  | some v1, some v2 =>
    match toNum v1, toNum v2 with
    | some a, some b => some (.num (a - b))
    | _, _ => none
  | _, _ => none

/-- One difference column: for each label row (rows 2 .. len(labels)+1,
positional), the difference of the two history columns. -/
def diffColumn (numLabels : ℕ) (c1 c2 : List Cell) : List Cell :=
  (List.range numLabels).map fun i => diffCell (getCell c1 i) (getCell c2 i)

/-- All adjacent pairs `(xs[i], xs[i+1])`. -/
def adjPairs (xs : List α) : List (α × α) := xs.zip xs.tail

/-- `InventoryManager.update_sales_differences`: the fully recomputed
`Sales Differences` sheet, as its filtered label column and its difference
columns (the sheet is cleared with `delete_rows` before being rewritten, so
the result depends only on the history sheet). -/
def update_sales_differences (s : Sheet) : List Value × List (String × List Cell) :=
  let labels := get_existing_labels s
  (labels,
    (adjPairs (inventoryColumns s)).filterMap fun pc =>
      (shouldDiff pc.1.1 pc.2.1).map fun h =>
        (h, diffColumn labels.length pc.1.2 pc.2.2))

/-! ### The AverageEngine (`InventoryManager.update_average_use`) -/

/-- The Boolean label filter used when a sheet's column A is read back. -/
def goodLabelB (v : Value) : Bool := truthy v && decide (v ≠ labelHeaderVal)

/-- The `differences` list collected for one label row: loop over the
difference columns left to right, keep cells that are present, numeric and
non-negative. -/
def collectLoop (cols : List (String × List Cell)) (i : ℕ) : List ℚ :=
  cols.foldl
    (fun acc c =>
      match (getCell c.2 i).bind toNum with
      | some d => if 0 ≤ d then acc ++ [d] else acc
      | none => acc)
    []

/-- The same collection phrased as the specification does: all present numeric
deltas across the difference columns, filtered to the non-negative ones. -/
def claimCollect (cols : List (String × List Cell)) (i : ℕ) : List ℚ :=
  (cols.filterMap fun c => (getCell c.2 i).bind toNum).filter fun d => 0 ≤ d

/-- `InventoryManager.update_average_use`: the recomputed `Average Use` sheet
from the differences sheet: its (re-filtered) label column, and per label row
the mean of the collected deltas rounded to 2 decimals, or an absent cell when
nothing was collected. -/
def update_average_use (diff : List Value × List (String × List Cell)) :
    List Value × List Cell :=
  let labels := diff.1.filter goodLabelB
  (labels,
    (List.range labels.length).map fun i =>
      let ds := collectLoop diff.2 i
      if ds.isEmpty then none else some (.num (round2 (ds.sum / (ds.length : ℚ)))))

/-! ### The PredictionEngine (`InventoryManager.update_predictions`) -/

/-- The Status cell: the string `Adequate Stock` or a numeric shortage. -/
inductive StatusCell where
  | adequate
  | shortage (q : ℚ)
deriving DecidableEq, Repr

/-- The per-label core of `InventoryManager.update_predictions` (the Weekly
Prediction and Status cells): given the label's current stock (defaulted to 0
upstream when absent) and its `Average Use` cell, produce the prediction cell
`round(avg * 7, 2)` and the status: `Adequate Stock` when
`current >= prediction` (unrounded prediction), else the shortage
`round(prediction - current, 2)`.  A missing or non-numeric average leaves
both cells absent (`try/except` swallows the conversion error). -/
def predCells (current : ℚ) (avgCell : Cell) : Option Value × Option StatusCell :=
  match avgCell.bind toNum with
  | none => (none, none)
  | some a =>
    let prediction := a * 7
    (some (.num (round2 prediction)),
      some (if prediction ≤ current then .adequate
        else .shortage (round2 (prediction - current))))

/-! ### The Extractor (`InventoryManager.extract_columns`) -/

/-- A pandas DataFrame as read from the input workbook: a header row and
row-major data (each row aligned with the headers). -/
structure DataFrame where
  headers : List String
  data : List (List Cell)
deriving DecidableEq, Repr

/-- `df[col].tolist()`: the column under the first header equal to `col`. -/
def dfColumn (df : DataFrame) (h : String) : List Cell :=
  match df.headers.findIdx? (· = h) with
  | some j => df.data.map fun row => getCell row j
  | none => []

/-- `InventoryManager.extract_columns`: verify every requested header occurs
in the frame, raising `ValueError` (the spec's `SchemaError`) with the list of
missing columns otherwise, then return the requested columns keyed by header
in request order. -/
def extract_columns (df : DataFrame) (columnHeaders : List String) :
    Except (List String) (List (String × List Cell)) :=
  let missing := columnHeaders.filter fun c => decide (c ∉ df.headers)
  if missing.isEmpty then .ok (columnHeaders.map fun c => (c, dfColumn df c))
  else .error missing

/-- Extraction paired with the persisted store it does not touch: the
operation is read-only, so the store passes through unchanged. -/
def extract_columns_st (store : List (String × Sheet)) (df : DataFrame)
    (columnHeaders : List String) :
    Except (List String) (List (String × List Cell)) × List (String × Sheet) :=
  (extract_columns df columnHeaders, store)

/-! ### Claim-side notions and concrete scenarios -/

/-- The order-preserving union of the specification: existing labels keep
their order, genuinely new labels are appended in first-seen order. -/
def orderUnion (old newLabels : List Value) : List Value :=
  old ++ dedupFirstAux old newLabels

/-- Sale 1 appended twice from an empty ledger (same sale number twice). -/
def cexT1 : Sheet := update_inventory_history Sheet.empty [.str "A"] [.num 5] "1"

def cexT2 : Sheet := update_inventory_history cexT1 [.str "A"] [.num 4] "1"

/-- A ledger whose first append carried the empty-string label (accepted by
`appendEvent`, written to column A, but falsy on read-back). -/
def cexS1 : Sheet :=
  update_inventory_history Sheet.empty [.str "", .str "A"] [.num 2, .num 1] "1"

/-- A second sale introducing the new label `C`, which triggers realignment
against the filtered label list. -/
def cexS2 : Sheet := update_inventory_history cexS1 [.str "C"] [.num 9] "2"

/-- A second sale without the falsy label: its row is dropped from the merged
label set. -/
def cexS2b : Sheet := update_inventory_history cexS1 [.str "B"] [.num 3] "2"

/-- A ledger carrying the falsy numeric label `0` below a good label. -/
def cexZ1 : Sheet :=
  update_inventory_history Sheet.empty [.str "A", .num 0] [.num 1, .num 2] "1"

def cexZ2 : Sheet := update_inventory_history cexZ1 [.str "B"] [.num 3] "2"

/-- A history with event columns Sale 1, Sale 3, Sale 4 (spec's
consecutiveness example). -/
def sheet134 : Sheet :=
  ⟨[some (.str "A")],
   [("Sale 1", [some (.num 10)]), ("Sale 3", [some (.num 8)]),
    ("Sale 4", [some (.num 5)])]⟩

/-- A history with two consecutive sales whose first value is non-numeric:
the single difference cell is silently left absent. -/
def sheetW : Sheet :=
  ⟨[some (.str "A")],
   [("Sale 1", [some (.str "x")]), ("Sale 2", [some (.num 5)])]⟩

/-- A differences sheet holding the deltas -3, 4, 6 for one label (spec's
average-exclusion example). -/
def avgDiffEx : List Value × List (String × List Cell) :=
  ([Value.str "A"],
   [("D1", [some (.num (-3))]), ("D2", [some (.num 4)]), ("D3", [some (.num 6)])])

/-- A small input frame with the default `Label` and `Stock` columns. -/
def dfEx : DataFrame :=
  ⟨["Label", "Stock"],
   [[some (.str "A"), some (.num 10)], [some (.str "B"), some (.num 20)]]⟩

/-! ### Theorems: supporting lemmas first, then one theorem per claim (with
witnesses and counterexamples where applicable). -/

theorem getCell_setCell_self (cs : List Cell) (i : ℕ) (v : Value) :
    getCell (setCell cs i v) i = some v := by
  induction cs generalizing i with
  | nil =>
    induction i with
    | zero => rfl
    | succ n ih => simpa [setCell, getCell] using ih
  | cons c cs ih =>
    cases i with
    | zero => rfl
    | succ n => simpa [setCell, getCell] using ih n

theorem getCell_setCell_ne (cs : List Cell) (i j : ℕ) (v : Value) (h : j ≠ i) :
    getCell (setCell cs i v) j = getCell cs j := by
  induction cs generalizing i j with
  | nil =>
    induction i generalizing j with
    | zero =>
      cases j with
      | zero => exact absurd rfl h
      | succ m => rfl
    | succ n ih =>
      cases j with
      | zero => rfl
      | succ m =>
        simpa [setCell, getCell] using ih m (fun hc => h (by omega))
  | cons c cs ih =>
    cases i with
    | zero =>
      cases j with
      | zero => exact absurd rfl h
      | succ m => rfl
    | succ n =>
      cases j with
      | zero => rfl
      | succ m =>
        simpa [setCell, getCell] using ih n m (fun hc => h (by omega))

theorem qfloor_intCast (m : ℤ) : qfloor (m : ℚ) = m := by
  have h1 : (m : ℚ).num = m := Rat.num_intCast m
  have h2 : (m : ℚ).den = 1 := Rat.den_intCast m
  rw [qfloor, h1, h2]
  exact Int.ediv_one m

theorem rhe_intCast (m : ℤ) : rhe (m : ℚ) = m := by
  simp only [rhe, qfloor_intCast, sub_self]
  norm_num

/-- A rational with at most two decimal places is fixed by `round2`. -/
theorem round2_hundredth (m : ℤ) : round2 ((m : ℚ) / 100) = (m : ℚ) / 100 := by
  have h : ((m : ℚ) / 100) * 100 = (m : ℚ) := by
    field_simp
  rw [round2, h, rhe_intCast]

/-! #### Label merging -/

theorem mem_dedupFirstAux (l : List Value) :
    ∀ (seen : List Value) (x : Value),
      x ∈ dedupFirstAux seen l ↔ x ∈ l ∧ x ∉ seen := by
  induction l with
  | nil => intro seen x; simp [dedupFirstAux]
  | cons y ys ih =>
    intro seen x
    by_cases hy : y ∈ seen
    · rw [dedupFirstAux, if_pos hy, ih]
      constructor
      · rintro ⟨h1, h2⟩; exact ⟨List.mem_cons_of_mem _ h1, h2⟩
      · rintro ⟨h1, h2⟩
        rcases List.mem_cons.mp h1 with rfl | h1
        · exact absurd hy h2
        · exact ⟨h1, h2⟩
    · rw [dedupFirstAux, if_neg hy]
      simp only [List.mem_cons, ih, not_or]
      constructor
      · rintro (rfl | ⟨h1, hne, h2⟩)
        · exact ⟨Or.inl rfl, hy⟩
        · exact ⟨Or.inr h1, h2⟩
      · rintro ⟨rfl | h1, h2⟩
        · exact Or.inl rfl
        · by_cases hxy : x = y
          · exact Or.inl hxy
          · exact Or.inr ⟨h1, hxy, h2⟩

theorem nodup_dedupFirstAux (l : List Value) :
    ∀ seen : List Value, (dedupFirstAux seen l).Nodup := by
  induction l with
  | nil => intro seen; simp [dedupFirstAux]
  | cons y ys ih =>
    intro seen
    by_cases hy : y ∈ seen
    · rw [dedupFirstAux, if_pos hy]; exact ih seen
    · rw [dedupFirstAux, if_neg hy]
      refine List.nodup_cons.mpr ⟨fun hc => ?_, ih (y :: seen)⟩
      exact ((mem_dedupFirstAux ys (y :: seen) y).mp hc).2 (List.mem_cons_self y seen)

theorem dedupFirstAux_seenExt (l : List Value) :
    ∀ seen seen' : List Value, (∀ x, x ∈ seen ↔ x ∈ seen') →
      dedupFirstAux seen l = dedupFirstAux seen' l := by
  induction l with
  | nil => intro seen seen' _; rfl
  | cons y ys ih =>
    intro seen seen' hext
    by_cases hy : y ∈ seen
    · rw [dedupFirstAux, if_pos hy, dedupFirstAux, if_pos ((hext y).mp hy)]
      exact ih seen seen' hext
    · rw [dedupFirstAux, if_neg hy, dedupFirstAux, if_neg (fun hc => hy ((hext y).mpr hc))]
      refine congrArg _ (ih (y :: seen) (y :: seen') fun x => ?_)
      simp [List.mem_cons, hext x]

theorem dedupFirstAux_append (e : List Value) :
    ∀ (n seen : List Value), e.Nodup → (∀ x ∈ e, x ∉ seen) →
      dedupFirstAux seen (e ++ n) = e ++ dedupFirstAux (e.reverse ++ seen) n := by
  induction e with
  | nil => intro n seen _ _; rfl
  | cons y ys ih =>
    intro n seen hnd hdisj
    have hy : y ∉ seen := hdisj y (List.mem_cons_self y ys)
    rw [List.cons_append, dedupFirstAux, if_neg hy]
    have hnd' : ys.Nodup := (List.nodup_cons.mp hnd).2
    have hyys : y ∉ ys := (List.nodup_cons.mp hnd).1
    have hdisj' : ∀ x ∈ ys, x ∉ y :: seen := by
      intro x hx
      simp only [List.mem_cons, not_or]
      exact ⟨fun hc => hyys (hc ▸ hx), hdisj x (List.mem_cons_of_mem _ hx)⟩
    rw [ih n (y :: seen) hnd' hdisj']
    rw [List.cons_append]
    refine congrArg _ (congrArg _ (dedupFirstAux_seenExt n _ _ fun x => ?_))
    simp only [List.reverse_cons, List.append_assoc, List.mem_append, List.mem_cons,
      List.mem_reverse, List.mem_singleton]
    tauto

theorem merge_labels_eq (e n : List Value) (hnd : e.Nodup) :
    merge_labels e n = e ++ dedupFirstAux e n := by
  rw [merge_labels, dedupFirstAux_append e n [] hnd (by simp)]
  refine congrArg _ (dedupFirstAux_seenExt n _ _ fun x => ?_)
  simp

theorem nodup_merge_labels (e n : List Value) : (merge_labels e n).Nodup :=
  nodup_dedupFirstAux _ _

theorem mem_merge_labels (e n : List Value) (x : Value) :
    x ∈ merge_labels e n ↔ x ∈ e ∨ x ∈ n := by
  rw [merge_labels, mem_dedupFirstAux]
  simp

/-! #### Realignment -/

theorem lastIdxOf_eq_none (xs : List Value) (v : Value) (h : v ∉ xs) :
    lastIdxOf xs v = none := by
  induction xs with
  | nil => rfl
  | cons x rest ih =>
    have hne : x ≠ v := fun hc => h (hc ▸ List.mem_cons_self x rest)
    have hv : v ∉ rest := fun hc => h (List.mem_cons_of_mem _ hc)
    rw [lastIdxOf, ih hv]
    simp [hne]

theorem lastIdxOf_nil (v : Value) : lastIdxOf [] v = none := rfl

theorem lastIdxOf_cons (x : Value) (rest : List Value) (v : Value) :
    lastIdxOf (x :: rest) v =
      match lastIdxOf rest v with
      | some i => some (i + 1)
      | none => if x == v then some 0 else none := rfl

theorem lastIdxOf_append (e rest : List Value) (v : Value) :
    lastIdxOf (e ++ rest) v =
      match lastIdxOf rest v with
      | some i => some (e.length + i)
      | none => lastIdxOf e v := by
  induction e with
  | nil => cases h : lastIdxOf rest v <;> simp [h, lastIdxOf_nil]
  | cons x e ih =>
    rw [List.cons_append, lastIdxOf_cons, ih, lastIdxOf_cons]
    cases h : lastIdxOf rest v with
    | none => rfl
    | some i =>
      simp only [List.length_cons]
      congr 1
      omega

theorem lastIdxOf_get_of_nodup (e : List Value) (hnd : e.Nodup) :
    ∀ (j : ℕ) (hj : j < e.length), lastIdxOf e (e.get ⟨j, hj⟩) = some j := by
  induction e with
  | nil => intro j hj; exact absurd hj (by simp)
  | cons x rest ih =>
    intro j hj
    cases j with
    | zero =>
      have hx : x ∉ rest := (List.nodup_cons.mp hnd).1
      rw [List.get]
      rw [lastIdxOf, lastIdxOf_eq_none rest x hx]
      simp
    | succ m =>
      have hm : m < rest.length := by simpa using hj
      rw [List.get]
      rw [lastIdxOf, ih (List.nodup_cons.mp hnd).2 m hm]

theorem pairsOfAux_keys_sublist (e : List Value) :
    ∀ (cells : List Cell) (k : ℕ),
      ((pairsOfAux e cells k).map Prod.fst).Sublist e := by
  induction e with
  | nil => intro cells k; simp [pairsOfAux]
  | cons l ls ih =>
    intro cells k
    rw [pairsOfAux]
    cases getCell cells k with
    | none => exact (ih cells (k + 1)).cons l
    | some v => exact (ih cells (k + 1)).cons₂ l

theorem dictOfPairsAux_of_nodup (ps : List (Value × Value)) :
    ∀ acc : List (Value × Value), ((acc ++ ps).map Prod.fst).Nodup →
      dictOfPairsAux acc ps = acc ++ ps := by
  induction ps with
  | nil => intro acc _; simp [dictOfPairsAux]
  | cons p ps ih =>
    intro acc hnd
    have hsplit := List.nodup_append.mp
      (by simpa only [List.map_append] using hnd :
        ((acc.map Prod.fst) ++ ((p :: ps).map Prod.fst)).Nodup)
    have hniq : p.1 ∉ acc.map Prod.fst := fun hc => hsplit.2.2 hc (by simp)
    have hany : ¬(acc.any fun q => q.1 == p.1) = true := by
      intro hc
      simp only [List.any_eq_true, beq_iff_eq] at hc
      obtain ⟨q, hq, hqk⟩ := hc
      exact hniq (hqk ▸ List.mem_map_of_mem Prod.fst hq)
    have hupsert : dictUpsert acc p.1 p.2 = acc ++ [p] := by
      rw [dictUpsert, if_neg hany]
    rw [dictOfPairsAux, hupsert, ih (acc ++ [p]) (by simpa using hnd)]
    simp

theorem dictOfPairs_of_nodup (ps : List (Value × Value))
    (hnd : (ps.map Prod.fst).Nodup) : dictOfPairs ps = ps := by
  rw [dictOfPairs, dictOfPairsAux_of_nodup ps [] (by simpa using hnd)]
  simp

theorem getCell_writeDict_pairsOfAux (all : List Value) (cells : List Cell) :
    ∀ (e : List Value) (k : ℕ) (cs : List Cell),
      (∀ (j : ℕ) (hj : j < e.length), lastIdxOf all (e.get ⟨j, hj⟩) = some (k + j)) →
      (∀ i, k ≤ i → getCell cs i = none) →
      ∀ i, getCell (writeDict (lastIdxOf all) (pairsOfAux e cells k) cs) i =
        if k ≤ i ∧ i < k + e.length then getCell cells i else getCell cs i := by
  intro e
  induction e with
  | nil =>
    intro k cs _ _ i
    rw [pairsOfAux, writeDict]
    rw [if_neg (by simp only [List.length_nil]; omega)]
  | cons l ls ih =>
    intro k cs hrow hcs i
    have hrow0 : lastIdxOf all l = some k := by
      have h0 := hrow 0 (by simp)
      simpa using h0
    have hrow' : ∀ (j : ℕ) (hj : j < ls.length),
        lastIdxOf all (ls.get ⟨j, hj⟩) = some (k + 1 + j) := by
      intro j hj
      have hs := hrow (j + 1) (by simpa using Nat.succ_lt_succ hj)
      have hget : (l :: ls).get ⟨j + 1, by simpa using Nat.succ_lt_succ hj⟩
          = ls.get ⟨j, hj⟩ := rfl
      rw [hget] at hs
      rw [hs]
      congr 1
      omega
    rw [pairsOfAux]
    have hlen : (l :: ls).length = ls.length + 1 := List.length_cons l ls
    cases hgc : getCell cells k with
    | none =>
      have hcs' : ∀ i, k + 1 ≤ i → getCell cs i = none := fun i hi =>
        hcs i (by omega)
      rw [ih (k + 1) cs hrow' hcs' i, hlen]
      by_cases h1 : i = k
      · subst h1
        rw [if_neg (by omega), if_pos (by omega), hgc, hcs i (le_refl i)]
      · by_cases h2 : k + 1 ≤ i ∧ i < k + 1 + ls.length
        · rw [if_pos h2, if_pos (by omega)]
        · rw [if_neg h2, if_neg (by omega)]
    | some v =>
      rw [writeDict, hrow0]
      have hcs' : ∀ i, k + 1 ≤ i → getCell (setCell cs k v) i = none := by
        intro i hi
        rw [getCell_setCell_ne cs k i v (by omega)]
        exact hcs i (by omega)
      rw [ih (k + 1) (setCell cs k v) hrow' hcs' i, hlen]
      by_cases h1 : i = k
      · subst h1
        rw [if_neg (by omega), if_pos (by omega), getCell_setCell_self, hgc]
      · by_cases h2 : k + 1 ≤ i ∧ i < k + 1 + ls.length
        · rw [if_pos h2, if_pos (by omega)]
        · rw [if_neg h2, if_neg (by omega), getCell_setCell_ne cs k i v h1]

/-- The full characterisation of one realigned column when the merged label
list extends a duplicate-free existing list: positions of existing labels
keep their previous value (positionally), rows of new labels stay empty. -/
theorem realignColumn_spec (existing rest : List Value) (cells : List Cell)
    (hnd : (existing ++ rest).Nodup) (i : ℕ) :
    getCell (realignColumn existing (existing ++ rest) cells) i =
      if i < existing.length then getCell cells i else none := by
  have hnde : existing.Nodup := (List.nodup_append.mp hnd).1
  have hdisj : ∀ x ∈ existing, x ∉ rest := fun x hx =>
    (List.nodup_append.mp hnd).2.2 hx
  have hkeys : ((pairsOfAux existing cells 0).map Prod.fst).Nodup :=
    (pairsOfAux_keys_sublist existing cells 0).nodup hnde
  have hrow : ∀ (j : ℕ) (hj : j < existing.length),
      lastIdxOf (existing ++ rest) (existing.get ⟨j, hj⟩) = some (0 + j) := by
    intro j hj
    have hmem : existing.get ⟨j, hj⟩ ∈ existing := List.get_mem existing j hj
    rw [lastIdxOf_append]
    rw [lastIdxOf_eq_none rest _ (hdisj _ hmem)]
    rw [lastIdxOf_get_of_nodup existing hnde j hj]
    simp
  have hcs : ∀ i : ℕ, 0 ≤ i → getCell ([] : List Cell) i = none := by
    intro i _; rfl
  rw [realignColumn, valuesToMove, dictOfPairs_of_nodup _ hkeys]
  rw [getCell_writeDict_pairsOfAux (existing ++ rest) cells existing 0 [] hrow hcs i]
  by_cases h : i < existing.length
  · rw [if_pos (by omega), if_pos h]
  · rw [if_neg (by omega), if_neg h]
    rfl

/-! #### Well-formed ledgers -/

theorem labelCells_all_good (cells : List Cell)
    (h : ∀ c ∈ cells, truthyCell c = true ∧ c ≠ some labelHeaderVal) :
    cells = (existingLabelsOf cells).map some := by
  induction cells with
  | nil => rfl
  | cons c cs ih =>
    obtain ⟨ht, hne⟩ := h c (List.mem_cons_self c cs)
    match c with
    | none => simp [truthyCell] at ht
    | some v =>
      have hv : truthy v = true := ht
      have hvne : v ≠ labelHeaderVal := fun hc => hne (by rw [hc])
      rw [existingLabelsOf, if_pos (by simp [hv, hvne]), List.map_cons]
      exact congrArg _ (ih fun c hc => h c (List.mem_cons_of_mem _ hc))

theorem wf_labelCells (s : Sheet) (hwf : wf s) :
    s.labelCells = (get_existing_labels s).map some :=
  labelCells_all_good s.labelCells hwf.1

theorem wf_existing_nodup (s : Sheet) (hwf : wf s) :
    (get_existing_labels s).Nodup := by
  have h := hwf.2
  rw [wf_labelCells s hwf] at h
  exact h.of_map

theorem wf_labelValues (s : Sheet) (hwf : wf s) :
    labelValues s = get_existing_labels s := by
  rw [labelValues, wf_labelCells s hwf]
  simp [List.filterMap_map]

theorem filterMap_id_map_some (e : List Value) :
    (e.map some).filterMap id = e := by
  simp [List.filterMap_map]

/-! #### The shape of an appended ledger -/

theorem update_labelCells (s : Sheet) (labels stocks : List Value) (hdr : String)
    (hwf : wf s) :
    (update_inventory_history_internal s labels stocks hdr).labelCells
      = (merge_labels (get_existing_labels s) labels).map some := by
  have hnd := wf_existing_nodup s hwf
  have hlen : s.labelCells.length = (get_existing_labels s).length := by
    rw [wf_labelCells s hwf, List.length_map]
  have hle : s.labelCells.length ≤ (merge_labels (get_existing_labels s) labels).length := by
    rw [hlen, merge_labels_eq _ _ hnd, List.length_append]
    omega
  have hbranch :
      (if (get_existing_labels s).length
            < (merge_labels (get_existing_labels s) labels).length then
          realign_existing_columns s (get_existing_labels s)
            (merge_labels (get_existing_labels s) labels)
        else s).labelCells = s.labelCells := by
    split <;> rfl
  simp only [update_inventory_history_internal, add_inventory_column,
    write_labels_to_column]
  rw [hbranch, List.drop_eq_nil_of_le hle, List.append_nil]

theorem update_eventCols (s : Sheet) (labels stocks : List Value) (hdr : String) :
    (update_inventory_history_internal s labels stocks hdr).eventCols
      = (if (get_existing_labels s).length
            < (merge_labels (get_existing_labels s) labels).length then
          s.eventCols.map fun c =>
            (c.1, realignColumn (get_existing_labels s)
              (merge_labels (get_existing_labels s) labels) c.2)
        else s.eventCols)
        ++ [(hdr, (merge_labels (get_existing_labels s) labels).map fun l =>
              dictGet (dictOfPairs (labels.zip stocks)) l)] := by
  rw [update_inventory_history_internal]
  split <;> rfl

theorem firstIdxOf_append_left (xs ys : List Cell) (v : Value) (i : ℕ)
    (h : firstIdxOf xs v = some i) : firstIdxOf (xs ++ ys) v = some i := by
  induction xs generalizing i with
  | nil => exact absurd h (by simp [firstIdxOf])
  | cons c cs ih =>
    rw [List.cons_append, firstIdxOf]
    rw [firstIdxOf] at h
    by_cases hc : c == some v
    · rw [if_pos hc] at h ⊢
      exact h
    · rw [if_neg hc] at h ⊢
      obtain ⟨i0, hi0, rfl⟩ := Option.map_eq_some'.mp h
      rw [ih i0 hi0]
      rfl

theorem firstIdxOf_map_some (e : List Value) (v : Value) (hv : v ∈ e) :
    ∃ i : ℕ, i < e.length ∧ firstIdxOf (e.map some) v = some i := by
  induction e with
  | nil => exact absurd hv (by simp)
  | cons x xs ih =>
    by_cases hx : x = v
    · subst hx
      exact ⟨0, by simp, by rw [List.map_cons, firstIdxOf, if_pos (by simp)]⟩
    · have hv' : v ∈ xs := by
        rcases List.mem_cons.mp hv with rfl | hm
        · exact absurd rfl hx
        · exact hm
      obtain ⟨i, hi, heq⟩ := ih hv'
      refine ⟨i + 1, by simpa using Nat.succ_lt_succ hi, ?_⟩
      rw [List.map_cons, firstIdxOf, if_neg (by simp [hx]), heq]
      rfl

/-! #### Claim theorems -/

/-- C1, counterexample: reprocessing sale number 1 does not overwrite the
existing `Sale 1` column; a second column with the same header is appended,
so the event-column count increases and headers are no longer unique. -/
theorem reprocess_sale_duplicates_column :
    cexT1.eventCols.map Prod.fst = ["Sale 1"]
      ∧ cexT2.eventCols.map Prod.fst = ["Sale 1", "Sale 1"]
      ∧ cexT2.eventCols.length = cexT1.eventCols.length + 1
      ∧ ¬(cexT2.eventCols.map Prod.fst).Nodup := by decide

/-- C1, amended: `appendEvent` never overwrites an existing event column.
Every append — whether or not the sale number was used before — adds exactly
one new rightmost column carrying the requested header, leaving all existing
event-column headers in place; reusing a sale number therefore duplicates the
`Sale n` header instead of replacing the column. -/
theorem append_always_adds_column (s : Sheet) (labels stocks : List Value)
    (hdr : String) :
    (update_inventory_history_internal s labels stocks hdr).eventCols.map Prod.fst
        = s.eventCols.map Prod.fst ++ [hdr]
      ∧ (update_inventory_history_internal s labels stocks hdr).eventCols.length
        = s.eventCols.length + 1 := by
  rw [update_eventCols]
  constructor
  · rw [List.map_append]
    split
    · simp [List.map_map, Function.comp]
    · rfl
  · rw [List.length_append]
    split
    · simp
    · simp

/-- C3, counterexample: starting from an empty ledger, appending
`Sale 1` with labels `["", "A"]` (quantities 2 and 1) and then `Sale 2` with
the new label `C` changes the value recorded for the previously existing
label `A` in the pre-existing `Sale 1` column from 1 to 2 (`A` inherits the
value of the falsy empty-string label dropped by `_get_existing_labels`), so
realignment can swap values across labels. -/
theorem realign_value_swap_cex :
    (Value.str "A") ∈ labelValues cexS1
      ∧ cexS1.eventCols.map Prod.fst = ["Sale 1"]
      ∧ recordedValue cexS1 (.str "A") 0 = some (.num 1)
      ∧ recordedValue cexS2 (.str "A") 0 = some (.num 2) := by decide

/-- C3, amended: provided every column-A label cell of the Ledger is truthy,
distinct from the literal `Label`, and no label occurs twice (the
well-formedness `wf`, which holds for all ledgers built from such labels),
an append preserves the value recorded for every previously existing label in
every pre-existing event column. -/
theorem realign_preserves_values (s : Sheet) (labels stocks : List Value)
    (hdr : String) (hwf : wf s) (L : Value) (hL : L ∈ labelValues s) (j : ℕ)
    (hj : j < s.eventCols.length) :
    recordedValue (update_inventory_history_internal s labels stocks hdr) L j
      = recordedValue s L j := by
  have hnd := wf_existing_nodup s hwf
  have hLex : L ∈ get_existing_labels s := by rwa [wf_labelValues s hwf] at hL
  obtain ⟨i, hi, hfi⟩ := firstIdxOf_map_some (get_existing_labels s) L hLex
  have hrowPre : rowOfLabel s L = some i := by
    rw [rowOfLabel, wf_labelCells s hwf, hfi]
  have hmerge : merge_labels (get_existing_labels s) labels
      = get_existing_labels s ++ dedupFirstAux (get_existing_labels s) labels :=
    merge_labels_eq _ _ hnd
  have hndm : (merge_labels (get_existing_labels s) labels).Nodup :=
    nodup_merge_labels _ _
  have hrowPost :
      rowOfLabel (update_inventory_history_internal s labels stocks hdr) L
        = some i := by
    rw [rowOfLabel, update_labelCells s labels stocks hdr hwf, hmerge,
      List.map_append]
    exact firstIdxOf_append_left _ _ _ _ hfi
  have hec := update_eventCols s labels stocks hdr
  by_cases hcond : (get_existing_labels s).length
      < (merge_labels (get_existing_labels s) labels).length
  · -- the label list grew: all old columns were realigned
    have hc : s.eventCols[j]? = some s.eventCols[j] := List.getElem?_eq_getElem hj
    have hcol :
        (update_inventory_history_internal s labels stocks hdr).eventCols[j]?
          = some (s.eventCols[j].1,
              realignColumn (get_existing_labels s)
                (merge_labels (get_existing_labels s) labels) s.eventCols[j].2) := by
      rw [hec, if_pos hcond]
      rw [List.getElem?_append_left (by simpa using hj)]
      rw [List.getElem?_map, hc]
      rfl
    rw [recordedValue, recordedValue, hrowPre, hrowPost, hcol, hc]
    show getCell (realignColumn (get_existing_labels s)
        (merge_labels (get_existing_labels s) labels) s.eventCols[j].2) i
      = getCell s.eventCols[j].2 i
    rw [hmerge] at hndm
    rw [hmerge, realignColumn_spec _ _ _ hndm i, if_pos hi]
  · -- no new labels: old columns untouched
    have hcol :
        (update_inventory_history_internal s labels stocks hdr).eventCols[j]?
          = s.eventCols[j]? := by
      rw [hec, if_neg hcond, List.getElem?_append_left (by simpa using hj)]
    rw [recordedValue, recordedValue, hrowPre, hrowPost, hcol]

/-- C3, witness: the preservation theorem applied to a concrete well-formed
one-column ledger and an append introducing the new label `B`. -/
theorem realign_preserves_values_witness :
    wf cexT1 ∧ (Value.str "A") ∈ labelValues cexT1 ∧ 0 < cexT1.eventCols.length
      ∧ recordedValue
          (update_inventory_history_internal cexT1 [.str "B"] [.num 4] "Sale 2")
          (.str "A") 0
        = recordedValue cexT1 (.str "A") 0 :=
  ⟨by decide, by decide, by decide,
    realign_preserves_values cexT1 [.str "B"] [.num 4] "Sale 2" (by decide)
      (.str "A") (by decide) 0 (by decide)⟩

/-- C4, counterexample: the empty-string label is merged into the Ledger by
the first append (it is physically written to column A) but is removed from
the ledger's label column by the next append, so a previously merged label is
not always kept. -/
theorem label_removed_cex :
    (Value.str "") ∈ labelValues cexS1
      ∧ (Value.str "") ∉ labelValues cexS2b := by decide

/-- C4, amended: for appends whose labels are all truthy and distinct from
the literal `Label`, the ledger's label column after an append onto a
well-formed ledger is the order-preserving union of the prior labels and the
event's labels (prior labels keep their order and are never removed, new
labels are appended in first-seen order), and well-formedness is preserved,
so this holds inductively along any such sequence of appends. -/
theorem label_order_union (s : Sheet) (labels stocks : List Value) (hdr : String)
    (hwf : wf s) (hgood : ∀ v ∈ labels, truthy v = true ∧ v ≠ labelHeaderVal) :
    labelValues (update_inventory_history_internal s labels stocks hdr)
        = orderUnion (labelValues s) labels
      ∧ wf (update_inventory_history_internal s labels stocks hdr) := by
  have hnd := wf_existing_nodup s hwf
  have hlc := update_labelCells s labels stocks hdr hwf
  refine ⟨?_, ?_, ?_⟩
  · rw [labelValues, hlc, filterMap_id_map_some, merge_labels_eq _ _ hnd,
      orderUnion, wf_labelValues s hwf]
  · intro c hc
    rw [hlc] at hc
    obtain ⟨v, hv, rfl⟩ := List.mem_map.mp hc
    rcases (mem_merge_labels _ _ v).mp hv with hve | hvl
    · have hmem : some v ∈ s.labelCells := by
        rw [wf_labelCells s hwf]
        exact List.mem_map_of_mem some hve
      obtain ⟨ht, hne⟩ := hwf.1 (some v) hmem
      exact ⟨ht, hne⟩
    · obtain ⟨ht, hne⟩ := hgood v hvl
      exact ⟨ht, by simpa using hne⟩
  · rw [hlc]
    exact (nodup_merge_labels _ _).map (Option.some_injective _)

/-- C4, witness: the order-union theorem applied to a concrete well-formed
one-label ledger and an append of the truthy label `B`. -/
theorem label_order_union_witness :
    wf cexT1
      ∧ labelValues
          (update_inventory_history_internal cexT1 [.str "B"] [.num 4] "Sale 2")
        = orderUnion (labelValues cexT1) [.str "B"]
      ∧ wf (update_inventory_history_internal cexT1 [.str "B"] [.num 4] "Sale 2") :=
  ⟨by decide,
    (label_order_union cexT1 [.str "B"] [.num 4] "Sale 2" (by decide) (by decide)).1,
    (label_order_union cexT1 [.str "B"] [.num 4] "Sale 2" (by decide) (by decide)).2⟩

theorem not_mem_existingLabelsOf (cells : List Cell) (v : Value)
    (hv : truthy v = false ∨ v = labelHeaderVal) : v ∉ existingLabelsOf cells := by
  induction cells with
  | nil => simp [existingLabelsOf]
  | cons c cs ih =>
    match c with
    | none => simpa [existingLabelsOf] using ih
    | some w =>
      rw [existingLabelsOf]
      by_cases hw : (truthy w && decide (w ≠ labelHeaderVal)) = true
      · rw [if_pos hw]
        intro hmem
        rcases List.mem_cons.mp hmem with rfl | hm
        · rcases hv with hf | hl
          · rw [hf] at hw
            simp at hw
          · rw [hl] at hw
            simp at hw
        · exact ih hm
      · rw [if_neg hw]
        exact ih

/-- C10: any column-A cell that is empty, falsy (such as the number 0 or the
empty string) or exactly the string `Label` is silently dropped when existing
labels are read back, both by the append path and by the recompute path; in
the concrete scenario the label `0` (accepted and written with quantity 2 by
the first append) is gone from the ledger's label column after the next
append, and its recorded quantity is gone with it. -/
theorem falsy_labels_dropped :
    (∀ (s : Sheet) (v : Value), truthy v = false ∨ v = labelHeaderVal →
        v ∉ get_existing_labels s ∧ v ∉ (update_sales_differences s).1)
      ∧ (Value.num 0) ∈ labelValues cexZ1
      ∧ recordedValue cexZ1 (.num 0) 0 = some (.num 2)
      ∧ get_existing_labels cexZ1 = [Value.str "A"]
      ∧ (Value.num 0) ∉ labelValues cexZ2
      ∧ recordedValue cexZ2 (.num 0) 0 = none := by
  refine ⟨?_, by decide, by decide, by decide, by decide, by decide⟩
  intro s v hv
  exact ⟨not_mem_existingLabelsOf s.labelCells v hv,
    not_mem_existingLabelsOf s.labelCells v hv⟩

/-- C10, witness: the general exclusion applied to the concrete post-append
ledger and the falsy label `0`. -/
theorem falsy_labels_dropped_witness :
    (truthy (Value.num 0) = false ∨ (Value.num 0) = labelHeaderVal)
      ∧ (Value.num 0) ∉ get_existing_labels cexZ1
      ∧ (Value.num 0) ∉ (update_sales_differences cexZ1).1 :=
  ⟨Or.inl (by decide),
    (falsy_labels_dropped.1 cexZ1 (.num 0) (Or.inl (by decide))).1,
    (falsy_labels_dropped.1 cexZ1 (.num 0) (Or.inl (by decide))).2⟩

theorem length_filterMap_eq_filter (l : List α) (f : α → Option β) :
    (l.filterMap f).length = (l.filter fun a => (f a).isSome).length := by
  induction l with
  | nil => rfl
  | cons x xs ih =>
    rw [List.filterMap_cons, List.filter_cons]
    cases h : f x with
    | none => simpa [h] using ih
    | some b => simpa [h] using ih

/-- C2: a delta column is emitted for an adjacent event pair exactly when both
are sales with consecutive numbers (second minus first equals one) or the
first is a restock and the second any sale; every other adjacent pair is
skipped (the engine is total and simply emits nothing for it); one column per
qualifying pair.  On the event list [Sale 1, Sale 3, Sale 4] exactly one
difference column is produced, for the pair (Sale 3, Sale 4). -/
theorem difference_pair_policy :
    (∀ k1 k2 : ColKind, (shouldDiff k1 k2).isSome = true ↔
        ((∃ a b : ℤ, k1 = .sale a ∧ k2 = .sale b ∧ b - a = 1)
          ∨ (∃ b : ℤ, k1 = .restock ∧ k2 = .sale b)))
      ∧ (∀ s : Sheet, (update_sales_differences s).2.length
          = ((adjPairs (inventoryColumns s)).filter
              fun pc => (shouldDiff pc.1.1 pc.2.1).isSome).length)
      ∧ (update_sales_differences sheet134).2.map Prod.fst
          = ["Difference Sale 3 - Sale 4"] := by
  refine ⟨?_, ?_, by decide⟩
  · intro k1 k2
    cases k1 with
    | sale a =>
      cases k2 with
      | sale b =>
        by_cases h : b - a = 1
        · simp [shouldDiff, h]
        · simp [shouldDiff, h]
      | restock => simp [shouldDiff]
    | restock =>
      cases k2 with
      | sale b => simp [shouldDiff]
      | restock => simp [shouldDiff]
  · intro s
    rw [update_sales_differences]
    simp only []
    rw [length_filterMap_eq_filter]
    refine congrArg _ (List.filter_congr fun pc _ => ?_)
    cases shouldDiff pc.1.1 pc.2.1 <;> rfl

theorem getCell_eq_getElem (l : List Cell) (i : ℕ) :
    getCell l i = l[i]?.getD none := by
  induction l generalizing i with
  | nil => cases i <;> rfl
  | cons c cs ih =>
    cases i with
    | zero => simp [getCell]
    | succ n => simpa [getCell] using ih n

theorem getCell_diffColumn (n : ℕ) (c1 c2 : List Cell) (i : ℕ) :
    getCell (diffColumn n c1 c2) i =
      if i < n then diffCell (getCell c1 i) (getCell c2 i) else none := by
  rw [diffColumn, getCell_eq_getElem, List.getElem?_map]
  by_cases h : i < n
  · rw [List.getElem?_eq_getElem (by simpa using h)]
    simp [h]
  · rw [List.getElem?_eq_none (by simpa using Nat.le_of_not_lt h)]
    simp [h]

theorem diffCell_eq (c1 c2 : Cell) :
    diffCell c1 c2 =
      (c1.bind toNum).bind fun a =>
        (c2.bind toNum).map fun b => Value.num (a - b) := by
  rcases c1 with _ | v1
  · rfl
  rcases c2 with _ | v2
  · cases h1 : toNum v1 <;> simp [diffCell, h1]
  cases h1 : toNum v1 <;> cases h2 : toNum v2 <;>
    simp [diffCell, h1, h2]

/-- C8: every emitted difference column comes from a qualifying adjacent event
pair, and each of its cells is the difference `value(event_i) - value(event_{i+1})`
when both history cells are present and numeric, and is silently left absent
otherwise (no error is raised: the function is total and every other cell of
the column and every other column are still produced). -/
theorem difference_cells_spec (s : Sheet) (hc : String × List Cell)
    (hmem : hc ∈ (update_sales_differences s).2) :
    ∃ p ∈ adjPairs (inventoryColumns s),
      shouldDiff p.1.1 p.2.1 = some hc.1
        ∧ ∀ i : ℕ, getCell hc.2 i =
            if i < (get_existing_labels s).length then
              ((getCell p.1.2 i).bind toNum).bind fun a =>
                ((getCell p.2.2 i).bind toNum).map fun b => Value.num (a - b)
            else none := by
  rw [update_sales_differences] at hmem
  simp only [] at hmem
  obtain ⟨p, hp, hfp⟩ := List.mem_filterMap.mp hmem
  obtain ⟨h0, hsd, heq⟩ := Option.map_eq_some'.mp hfp
  refine ⟨p, hp, ?_, ?_⟩
  · rw [hsd, ← heq]
  · intro i
    rw [← heq]
    simp only []
    rw [getCell_diffColumn, ← diffCell_eq]

/-- C8, witness: the cell theorem applied to the concrete history `sheetW`,
whose single difference cell is absent because the first value is
non-numeric. -/
theorem difference_cells_spec_witness :
    (("Difference Sale 1 - Sale 2", [(none : Cell)])
        ∈ (update_sales_differences sheetW).2)
      ∧ ∃ p ∈ adjPairs (inventoryColumns sheetW),
          shouldDiff p.1.1 p.2.1
              = some ("Difference Sale 1 - Sale 2", [(none : Cell)]).1
            ∧ ∀ i : ℕ, getCell ("Difference Sale 1 - Sale 2", [(none : Cell)]).2 i =
                if i < (get_existing_labels sheetW).length then
                  ((getCell p.1.2 i).bind toNum).bind fun a =>
                    ((getCell p.2.2 i).bind toNum).map fun b => Value.num (a - b)
                else none :=
  ⟨by decide,
    difference_cells_spec sheetW ("Difference Sale 1 - Sale 2", [none]) (by decide)⟩

theorem collectLoop_eq_claimCollect (cols : List (String × List Cell)) (i : ℕ) :
    collectLoop cols i = claimCollect cols i := by
  have haux : ∀ (cs : List (String × List Cell)) (acc : List ℚ),
      cs.foldl
        (fun acc c =>
          match (getCell c.2 i).bind toNum with
          | some d => if 0 ≤ d then acc ++ [d] else acc
          | none => acc) acc
        = acc ++ claimCollect cs i := by
    intro cs
    induction cs with
    | nil => intro acc; simp [claimCollect]
    | cons c cs ih =>
      intro acc
      simp only [List.foldl_cons]
      cases h : (getCell c.2 i).bind toNum with
      | none =>
        simpa only [claimCollect, List.filterMap_cons, h] using ih acc
      | some d =>
        have hstep := ih (if 0 ≤ d then acc ++ [d] else acc)
        simp only [claimCollect, List.filterMap_cons, h] at hstep ⊢
        rw [hstep, List.filter_cons]
        by_cases hd : 0 ≤ d
        · rw [if_pos hd, if_pos (by simpa using hd)]
          simp
        · rw [if_neg hd, if_neg (by simpa using hd)]
  rw [collectLoop, haux cols []]
  rfl

/-- C5: per label row, the Average Use engine collects exactly the present
numeric deltas of all difference columns filtered to the non-negative ones,
writes their mean rounded to 2 decimal places when at least one remains and
leaves the cell absent otherwise; the deltas -3, 4 and 6 average to 5. -/
theorem average_use_spec :
    (∀ (dls : List Value) (cols : List (String × List Cell)),
        (update_average_use (dls, cols)).2
          = (List.range (dls.filter goodLabelB).length).map fun i =>
              if claimCollect cols i = [] then none
              else some (.num (round2 ((claimCollect cols i).sum
                / ((claimCollect cols i).length : ℚ)))))
      ∧ update_average_use avgDiffEx = ([Value.str "A"], [some (.num 5)]) := by
  constructor
  · intro dls cols
    simp only [update_average_use]
    refine List.map_congr_left fun i hi => ?_
    rw [collectLoop_eq_claimCollect]
    by_cases h : claimCollect cols i = []
    · simp [h]
    · simp [h, List.isEmpty_iff]
  · have h5 : round2 ((4 + 6) / (2 : ℚ)) = 5 := by norm_num [round2, rhe, qfloor]
    simp [update_average_use, collectLoop, getCell, toNum, goodLabelB, truthy,
      labelHeaderVal, List.range_succ, avgDiffEx]
    norm_num
    convert h5 using 2
    norm_num

/-- C6: the shortage color clamps to `FFC7CE` for shortage at least 15, and
below 15 equals the specification's per-channel linear interpolation
`start + (end - start) * (s / 15)` truncated to an integer and rendered as
two uppercase hex digits per channel (the `min` in the source is inert below
15); shortages 0, 15 and 30 give `C6EFCE`, `FFC7CE` and `FFC7CE`. -/
theorem shortage_color_spec :
    (∀ s : ℚ, get_shortage_color s
        = if 15 ≤ s then "FFC7CE" else claimChannelColor s)
      ∧ get_shortage_color 0 = "C6EFCE"
      ∧ get_shortage_color 15 = "FFC7CE"
      ∧ get_shortage_color 30 = "FFC7CE" := by
  refine ⟨?_, ?_, ?_, ?_⟩
  · intro s
    simp only [get_shortage_color, claimChannelColor]
    by_cases h : 15 ≤ s
    · rw [if_pos h, if_pos h]
    · have hs : s / 15 < 1 := (div_lt_one (by norm_num)).mpr (by linarith)
      have hmin : min (s / 15) 1 = s / 15 := min_eq_left (le_of_lt hs)
      rw [if_neg h, if_neg h, hmin]
  · norm_num [get_shortage_color, pytrunc, qfloor]
    decide
  · norm_num [get_shortage_color]
  · norm_num [get_shortage_color]

/-- C7: every Average Use cell is a two-decimal rational `m / 100`, and for
such an average the prediction cell is `average * 7` rounded to 2 decimals
while the status is `Adequate Stock` exactly when the current stock is at
least the (rounded) projection — equality included, since the comparison is
`>=` — and otherwise the numeric shortage `projection - current` rounded to
2 decimals. -/
theorem prediction_status_spec :
    (∀ (diff : List Value × List (String × List Cell)) (i : ℕ) (v : Value),
        getCell (update_average_use diff).2 i = some v →
          ∃ m : ℤ, v = .num ((m : ℚ) / 100))
      ∧ (∀ (current : ℚ) (m : ℤ),
          predCells current (some (.num ((m : ℚ) / 100)))
            = (some (.num (round2 ((m : ℚ) / 100 * 7))),
               some (if round2 ((m : ℚ) / 100 * 7) ≤ current
                 then StatusCell.adequate
                 else StatusCell.shortage
                   (round2 (round2 ((m : ℚ) / 100 * 7) - current))))) := by
  constructor
  · intro diff i v hv
    simp only [update_average_use] at hv
    rw [getCell_eq_getElem, List.getElem?_map] at hv
    by_cases hlen : i < (diff.1.filter goodLabelB).length
    · rw [List.getElem?_eq_getElem (by simpa using hlen)] at hv
      simp only [Option.map_some', Option.getD_some, List.getElem_range] at hv
      by_cases hempty : (collectLoop diff.2 i).isEmpty
      · rw [if_pos hempty] at hv
        exact absurd hv (by simp)
      · rw [if_neg hempty] at hv
        have hveq := Option.some.inj hv
        refine ⟨rhe ((collectLoop diff.2 i).sum
          / ((collectLoop diff.2 i).length : ℚ) * 100), ?_⟩
        rw [← hveq]
        rfl
    · rw [List.getElem?_eq_none (by simpa using Nat.le_of_not_lt hlen)] at hv
      exact absurd hv (by simp)
  · intro current m
    have h7 : ((m : ℚ) / 100) * 7 = ((7 * m : ℤ) : ℚ) / 100 := by
      push_cast
      ring
    have hr : round2 ((m : ℚ) / 100 * 7) = (m : ℚ) / 100 * 7 := by
      rw [h7, round2_hundredth]
    simp only [predCells, Option.some_bind, toNum]
    rw [hr]

/-- C7, witness: the two-decimal form discharged on a concrete Average Use
cell, and the status equation instantiated at average 4 (projection 28) and
current stock 35. -/
theorem prediction_status_spec_witness :
    (∃ m : ℤ, Value.num 0 = .num ((m : ℚ) / 100))
      ∧ predCells 35 (some (.num (((400 : ℤ) : ℚ) / 100)))
          = (some (.num (round2 (((400 : ℤ) : ℚ) / 100 * 7))),
             some (if round2 (((400 : ℤ) : ℚ) / 100 * 7) ≤ 35
               then StatusCell.adequate
               else StatusCell.shortage
                 (round2 (round2 (((400 : ℤ) : ℚ) / 100 * 7) - 35)))) :=
  ⟨prediction_status_spec.1 ([Value.str "A"], [("D", [some (.num 0)])]) 0 (.num 0)
      (by
        simp [update_average_use, collectLoop, getCell, toNum, goodLabelB,
          truthy, labelHeaderVal, List.range_succ]
        norm_num [round2, rhe, qfloor]),
    prediction_status_spec.2 35 400⟩

theorem dfColumn_length_of_mem (df : DataFrame) (c : String)
    (h : c ∈ df.headers) : (dfColumn df c).length = df.data.length := by
  cases hf : df.headers.findIdx? (· = c) with
  | some j => rw [dfColumn, hf, List.length_map]
  | none =>
    rw [List.findIdx?_eq_none_iff] at hf
    have hfc := hf c h
    simp at hfc

theorem missing_filter_ne_nil (df : DataFrame) (c1 c2 : String)
    (h : c1 ∉ df.headers ∨ c2 ∉ df.headers) :
    ([c1, c2].filter fun c => decide (c ∉ df.headers)) ≠ [] := by
  rcases h with h | h
  · have hmem : c1 ∈ [c1, c2].filter fun c => decide (c ∉ df.headers) :=
      List.mem_filter.mpr ⟨by simp, by simpa using h⟩
    exact List.ne_nil_of_mem hmem
  · have hmem : c2 ∈ [c1, c2].filter fun c => decide (c ∉ df.headers) :=
      List.mem_filter.mpr ⟨by simp, by simpa using h⟩
    exact List.ne_nil_of_mem hmem

/-- C9: the extractor returns, for two requested column names both present in
the header row, the two columns keyed by name in request order, each
row-aligned with the source (same length as the data, entry i taken from row
i); when either name is absent it fails with `ValueError` (the spec's
`SchemaError`) carrying the non-empty list of missing columns; and in either
case the persisted store is untouched. -/
theorem extract_columns_spec (df : DataFrame) (c1 c2 : String) :
    (c1 ∈ df.headers → c2 ∈ df.headers →
        extract_columns df [c1, c2]
            = .ok [(c1, dfColumn df c1), (c2, dfColumn df c2)]
          ∧ (dfColumn df c1).length = df.data.length
          ∧ (dfColumn df c2).length = df.data.length)
      ∧ ((c1 ∉ df.headers ∨ c2 ∉ df.headers) →
          ∃ missing, extract_columns df [c1, c2] = .error missing ∧ missing ≠ [])
      ∧ (∀ store : List (String × Sheet),
          (extract_columns_st store df [c1, c2]).2 = store) := by
    refine ⟨?_, ?_, fun store => rfl⟩
    · intro h1 h2
      have e1 : (decide (c1 ∉ df.headers)) = false := by simp [h1]
      have e2 : (decide (c2 ∉ df.headers)) = false := by simp [h2]
      have hm : ([c1, c2].filter fun c => decide (c ∉ df.headers)) = [] := by
        simp only [List.filter_cons, List.filter_nil, e1, e2]
        rfl
      refine ⟨?_, dfColumn_length_of_mem df c1 h1, dfColumn_length_of_mem df c2 h2⟩
      simp only [extract_columns, hm]
      rfl
    · intro h
      have hne := missing_filter_ne_nil df c1 c2 h
      refine ⟨[c1, c2].filter fun c => decide (c ∉ df.headers), ?_, hne⟩
      have hb : ¬([c1, c2].filter fun c => decide (c ∉ df.headers)).isEmpty = true := by
        intro hc
        rw [List.isEmpty_iff] at hc
        exact hne hc
      simp only [extract_columns, if_neg hb]

/-- C9, witness: extraction of the default `Label` and `Stock` columns from a
concrete two-row frame, and the failure branch for a missing column. -/
theorem extract_columns_spec_witness :
    ("Label" ∈ dfEx.headers ∧ "Stock" ∈ dfEx.headers
        ∧ extract_columns dfEx ["Label", "Stock"]
            = .ok [("Label", dfColumn dfEx "Label"), ("Stock", dfColumn dfEx "Stock")]
        ∧ (dfColumn dfEx "Label").length = dfEx.data.length
        ∧ (dfColumn dfEx "Stock").length = dfEx.data.length)
      ∧ (("Label" ∉ dfEx.headers ∨ "Missing" ∉ dfEx.headers)
        ∧ ∃ missing, extract_columns dfEx ["Label", "Missing"] = .error missing
            ∧ missing ≠ []) := by
  constructor
  · refine ⟨by decide, by decide, ?_⟩
    exact (extract_columns_spec dfEx "Label" "Stock").1 (by decide) (by decide)
  · refine ⟨Or.inr (by decide), ?_⟩
    exact (extract_columns_spec dfEx "Label" "Missing").2.1 (Or.inr (by decide))

end BDBox
